import Mathlib

set_option maxHeartbeats 1600000

/-!
Shallow embedding of the geographic feature search core
(`src/search/search_query.cpp`) and proofs about it.

Conventions used throughout:
- machine integers are modelled as `Nat` (ranks, feature offsets, sizes);
  `uint32_t(-1)` is the explicit literal `4294967295` and
  `numeric_limits<size_t>::max()` the literal `18446744073709551615`;
- unicode strings (`strings::UniString`) are lists of code points
  (`List Nat`);
- external collaborators that are not part of the repository (rectangle
  geometry, the scale index, the keyword scorer, the tile container) are
  either parameters of the definitions or data fields carrying the values
  they would produce, so every theorem quantifies over all of their
  behaviours;
- `std::sort` with a strict comparator `lt` is modelled by insertion sort
  with the non-strict comparator `le a b = !(lt b a)`; any correct sort is
  an admissible model because `std::sort` does not promise stability.
-/

namespace SearchQuery

/-- Insertion of `x` into `l` in front of the first element `y` with
`le x y`; helper of `sortBy`. -/
def insertSorted {α : Type} (le : α → α → Bool) (x : α) : List α → List α
  | [] => [x]
  | y :: t => if le x y then x :: y :: t else y :: insertSorted le x t

/-- Comparator-based insertion sort, the model of `std::sort(first, last, comp)`. -/
def sortBy {α : Type} (le : α → α → Bool) : List α → List α
  | [] => []
  | x :: t => insertSorted le x (sortBy le t)

/-- Number of distinct key values of elements of `l` that are strictly below
the key of `v`.  This is the rank position the loop of `Query::FlushResults`
(lines 429-437) assigns: the rank starts at 0 on the sorted vector and is
incremented exactly when the comparator separates adjacent elements, so equal
runs share a rank.  The equivalence is proved in `assignRanks_mem`. -/
def rankOf {β : Type} (K : β → Nat) (l : List β) (v : β) : Nat :=
  (((l.map K).toFinset).filter (fun m => m < K v)).card

/-- `IndexedValue` of `Query::FlushResults` (search_query.cpp lines 234-281):
a promoted candidate (`m_val`, here abstract `val`) together with the array
`m_ind` of `Query::m_qCount = 3` per-criterion rank positions, modelled as the
three fields `i0 i1 i2`. -/
structure IndexedValue (α : Type) where
  val : α
  i0 : Nat
  i1 : Nat
  i2 : Nat

/-- Constructor `IndexedValue(value_type * v)`: all three rank slots start at
`numeric_limits<size_t>::max()`. -/
def mkIndexedValue {α : Type} (v : α) : IndexedValue α :=
  ⟨v, 18446744073709551615, 18446744073709551615, 18446744073709551615⟩

/-- `SetIndex(0, r)`. -/
def setInd0 {α : Type} (r : Nat) (x : IndexedValue α) : IndexedValue α :=
  ⟨x.val, r, x.i1, x.i2⟩

/-- `SetIndex(1, r)`. -/
def setInd1 {α : Type} (r : Nat) (x : IndexedValue α) : IndexedValue α :=
  ⟨x.val, x.i0, r, x.i2⟩

/-- `SetIndex(2, r)`. -/
def setInd2 {α : Type} (r : Nat) (x : IndexedValue α) : IndexedValue α :=
  ⟨x.val, x.i0, x.i1, r⟩

/-- `sort(m_ind.begin(), m_ind.end())` on the 3-element rank array, written
out as the explicit comparison tree of sorting three naturals ascending. -/
def sort3 (a b c : Nat) : Nat × Nat × Nat :=
  if a ≤ b then
    if b ≤ c then (a, b, c)
    else if a ≤ c then (a, c, b)
    else (c, a, b)
  else
    if a ≤ c then (b, a, c)
    else if b ≤ c then (b, c, a)
    else (c, b, a)

/-- `IndexedValue::SortIndex()`: sort the three rank positions ascending in
place. -/
def SortIndex {α : Type} (x : IndexedValue α) : IndexedValue α :=
  ⟨x.val, (sort3 x.i0 x.i1 x.i2).1, (sort3 x.i0 x.i1 x.i2).2.1,
    (sort3 x.i0 x.i1 x.i2).2.2⟩

/-- `IndexedValue::operator<` (lines 271-280): walk the rank array, the first
differing slot decides, equal arrays compare not-less. -/
def indLt {α : Type} (x y : IndexedValue α) : Bool :=
  if x.i0 ≠ y.i0 then decide (x.i0 < y.i0)
  else if x.i1 ≠ y.i1 then decide (x.i1 < y.i1)
  else if x.i2 ≠ y.i2 then decide (x.i2 < y.i2)
  else false

/-- Propositional form of `indLt`, used by the arithmetic lemmas. -/
def lexProp {α : Type} (x y : IndexedValue α) : Prop :=
  x.i0 < y.i0 ∨ (x.i0 = y.i0 ∧ (x.i1 < y.i1 ∨ (x.i1 = y.i1 ∧ x.i2 < y.i2)))

/-- The rank-assignment loop of `Query::FlushResults` (lines 429-437) over an
already sorted vector: the first element receives rank `r`, and the rank is
incremented exactly when the key (the sort comparator) separates adjacent
elements; `st` is `SetIndex` for the criterion being processed. -/
def assignRanks {β : Type} (K : β → Nat) (st : Nat → β → β) : List β → Nat → List β
  | [], _ => []
  | [x], r => [st r x]
  | x :: y :: t, r =>
      st r x :: assignRanks K st (y :: t) (if K x < K y then r + 1 else r)

/-- One iteration of the criterion loop of `Query::FlushResults`
(lines 422-438): sort by the criterion comparator, then assign rank
positions.  `K` is the numeric key realising the criterion comparator
(`g_arrCompare2[i]`), `st` the `SetIndex` for slot `i`. -/
def rankPass {β : Type} (K : β → Nat) (st : Nat → β → β) (l : List β) : List β :=
  assignRanks K st (sortBy (fun a b => decide (K a ≤ K b)) l) 0

/-- The ranking and fusion part of `Query::FlushResults` (lines 422-444) on
the vector `indV` that survived linear-object deduplication: three rank
passes, per-element ascending sort of the rank triple, and the final sort by
`IndexedValue::operator<`.  The three criterion comparators
(`PreResult2::LessRank`, `LessViewportDistance`, `LessDistance`) are numeric
orders and are modelled by their key functions `k0 k1 k2`, smaller key =
earlier under the comparator. -/
def flushIndexed {α : Type} (k0 k1 k2 : α → Nat) (l : List α) :
    List (IndexedValue α) :=
  sortBy (fun a b => !(indLt b a))
    ((rankPass (fun x => k2 x.val) setInd2
      (rankPass (fun x => k1 x.val) setInd1
        (rankPass (fun x => k0 x.val) setInd0
          (l.map mkIndexedValue)))).map SortIndex)

/-- Emission order of `Query::FlushResults` (lines 447-454): the candidates in
the final fused order.  Cancellation (line 449) can only cut a suffix of this
sequence, so relative order statements about it cover the emitted sequence. -/
def FlushResults {α : Type} (k0 k1 k2 : α → Nat) (l : List α) : List α :=
  (flushIndexed k0 k1 k2 l).map IndexedValue.val

/-- The sorted triple of per-criterion rank positions of `v` relative to the
candidate list `l`. -/
def ranksTriple {α : Type} (k0 k1 k2 : α → Nat) (l : List α) (v : α) :
    Nat × Nat × Nat :=
  sort3 (rankOf k0 l v) (rankOf k1 l v) (rankOf k2 l v)

/-- `feature::DataHeader` map types consulted by the search core. -/
inductive MapType
  | world
  | worldcoasts
  | country
deriving DecidableEq

/-- One mwm tile as seen by `Query::UpdateViewportOffsets` (lines 73-127).
The geometric test against the extended viewport, the availability of the
lock, and the offsets the scale index enumerates for each covering interval
(`ForEachInIntervalAndScale`, an external collaborator) are carried as data,
so the definitions below quantify over every behaviour of the externals. -/
structure MwmTile where
  intersectsViewportExt : Bool
  available : Bool
  headerType : MapType
  intervalFeatureOffsets : List (List Nat)

/-- `Query::UpdateViewportOffsets` (lines 73-127): for each tile that
intersects the extended viewport, is available, and is of type `country`, the
cache entry collects the offsets enumerated interval by interval and is then
sorted (`sort`, line 110 — note: no deduplication).  All other tiles keep the
empty entry created by `resize` (line 79); in particular `world` tiles are
skipped. -/
def UpdateViewportOffsets (tiles : List MwmTile) : List (List Nat) :=
  tiles.map fun t =>
    if t.intersectsViewportExt && t.available
        && decide (t.headerType = MapType.country) then
      sortBy (fun a b : Nat => decide (a ≤ b)) t.intervalFeatureOffsets.flatten
    else []

/-- `Query::CancelException`, the sentinel thrown on cancellation. -/
structure CancelException where

/-- `FeaturesFilter::operator()` (lines 605-611): poll the cancel flag first
and throw `Query::CancelException` if it is set; otherwise admit when
`m_alwaysTrue` or when the offset is found in the (sorted) cache entry —
`binary_search` is modelled by list membership. -/
def FeaturesFilter (offsets : List Nat) (alwaysTrue : Bool) (isCancel : Bool)
    (offset : Nat) : Except CancelException Bool :=
  if isCancel then Except.error CancelException.mk
  else Except.ok (alwaysTrue || offsets.contains offset)

/-- The filter `Query::SearchFeatures` builds per tile (line 673):
`FeaturesFilter(m_offsetsInViewport[mwmId], isWorld, m_cancel)` with
`isWorld = (header.GetType() == feature::DataHeader::world)`. -/
def searchFeaturesFilter (cacheEntry : List Nat) (tileType : MapType)
    (isCancel : Bool) (offset : Nat) : Except CancelException Bool :=
  FeaturesFilter cacheEntry (decide (tileType = MapType.world)) isCancel offset

/-- The viewport-related state of `Query`: `m_viewport`,
`m_viewportExtended`, `m_offsetsInViewport`, `m_bOffsetsCacheIsValid`. -/
structure QueryVState (Rect : Type) where
  viewport : Rect
  viewportExtended : Rect
  offsetsInViewport : List (List Nat)
  offsetsCacheIsValid : Bool

/-- `Query::SetViewport` (lines 48-60): when the rectangle differs from the
current viewport or the cache is invalid, store the new viewport, compute the
extended viewport (`Scale(3)`, parameter `scale3`), and call
`UpdateViewportOffsets` right away (parameter `updateOffsets`, standing for
the index walk, which also sets `m_bOffsetsCacheIsValid = true`). -/
def SetViewport {Rect : Type} (beq : Rect → Rect → Bool) (scale3 : Rect → Rect)
    (updateOffsets : Rect → Rect → List (List Nat)) (viewport : Rect)
    (s : QueryVState Rect) : QueryVState Rect :=
  if beq s.viewport viewport && s.offsetsCacheIsValid then s
  else
    ⟨viewport, scale3 viewport, updateOffsets viewport (scale3 viewport), true⟩

/-- Outcomes the external stages of one `Query::Search` call would produce:
the lat/lon parse (`search::MatchLatLon`), the suggestions
(`SuggestStrings`), and the feature results the flush would emit. -/
structure SearchStages (R : Type) where
  latlonResult : Option R
  suggestResults : List R
  flushResults : List R

/-- Results emitted by one `Query::Search` call, split by producing stage. -/
structure SearchEmitted (R : Type) where
  latlonResults : List R
  suggestResults : List R
  featureResults : List R

/-- Control flow of `Query::Search` (lines 149-208).  The first statement of
the initialize block is `m_cancel = false` (line 153), overwriting whatever
value the flag had before entry (`cancelBeforeEntry`).  The subsequent
checkpoints (lines 200, 203, 206) read the flag, which in a sequential
execution is still `false`.  `Search` never writes `m_offsetsInViewport` or
`m_bOffsetsCacheIsValid`, so the viewport state is returned unchanged. -/
def Search {R Rect : Type} (cancelBeforeEntry : Bool) (stages : SearchStages R)
    (s : QueryVState Rect) : SearchEmitted R × QueryVState Rect × Bool :=
  let mCancel := false
  let latlon := match stages.latlonResult with
    | some r => [r]
    | none => []
  if mCancel then (⟨latlon, [], []⟩, s, mCancel)
  else
    let sugg := stages.suggestResults
    if mCancel then (⟨latlon, sugg, []⟩, s, mCancel)
    else if mCancel then (⟨latlon, sugg, []⟩, s, mCancel)
    else (⟨latlon, sugg, stages.flushResults⟩, s, mCancel)

/-- Modelled from the spec: `SplitUniString` (from `base/string_utils`, not
under `src/`) splits on the delimiter predicate, accumulating the current
token in `cur` (kept reversed) and flushing it at each delimiter and at the
end; only nonempty tokens are emitted. -/
def splitAux (d : Nat → Bool) (cur : List Nat) : List Nat → List (List Nat)
  | [] => if cur = [] then [] else [cur.reverse]
  | c :: t =>
      if d c then
        if cur = [] then splitAux d [] t else cur.reverse :: splitAux d [] t
      else splitAux d (c :: cur) t

/-- Modelled from the spec: split a unicode string into its maximal
delimiter-free tokens. -/
def SplitUniString (d : Nat → Bool) (s : List Nat) : List (List Nat) :=
  splitAux d [] s

/-- Modelled from the spec: `strings::LastUniChar` (from `base/string_utils`,
not under `src/`) — the last code point of the raw query, 0 for the empty
string. -/
def LastUniChar (s : List Nat) : Nat :=
  s.getLastD 0

/-- Tokenisation step of `Query::Search` (lines 155-168): split the
normalized query `uni`, detach the final token into the prefix slot when the
token list is nonempty and the last code point of the raw query is not a
delimiter, then truncate the token list to 31.  Returns (tokens, detached
trailing token). -/
def SearchTokenize (d : Nat → Bool) (raw uni : List Nat) :
    List (List Nat) × List Nat :=
  if h : SplitUniString d uni ≠ [] ∧ d (LastUniChar raw) = false then
    ((SplitUniString d uni).dropLast.take 31, (SplitUniString d uni).getLast h.1)
  else ((SplitUniString d uni).take 31, [])

/-- Modelled from the spec: `impl::PreResult1`, the lightweight trie hit
(FeatureKey = (feature offset, tile id), rank byte); its definition lives
outside `src/`.  Distances derived from the feature point are irrelevant to
the queue invariants and are left to the abstract comparators. -/
structure PreResult1 where
  featureId : Nat
  mwmId : Nat
  rank : Nat
deriving DecidableEq

/-- `PreResult1::GetID()`: the pair (feature offset, mwm id). -/
def GetID (r : PreResult1) : Nat × Nat :=
  (r.featureId, r.mwmId)

/-- Pick a maximal element under the comparator out of `x :: l` (the "top" of
the bounded priority queue, i.e. its current worst element). -/
def worstElem (cmp : PreResult1 → PreResult1 → Bool) (x : PreResult1) :
    List PreResult1 → PreResult1
  | [] => x
  | y :: t => worstElem cmp (if cmp x y then y else x) t

/-- Remove the current worst element of a nonempty queue. -/
def eraseWorst (cmp : PreResult1 → PreResult1 → Bool) (q : List PreResult1) :
    List PreResult1 :=
  match q with
  | [] => []
  | x :: t => (x :: t).erase (worstElem cmp x t)

/-- Modelled from the spec: `push` of the bounded priority queue (`QueueT`,
declared in the header, not under `src/`): below capacity the value is
inserted, on overflow the current worst under the queue ordering is
displaced. -/
def queuePush (cap : Nat) (cmp : PreResult1 → PreResult1 → Bool)
    (v : PreResult1) (q : List PreResult1) : List PreResult1 :=
  if q.length < cap then v :: q
  else
    match q with
    | [] => []
    | x :: t => v :: eraseWorst cmp (x :: t)

/-- The three candidate queues `Query::m_results[0..2]`. -/
structure CandidateQueues where
  q0 : List PreResult1
  q1 : List PreResult1
  q2 : List PreResult1

/-- One queue step of `Query::AddResultFromTrie` (lines 477-482): push only
when no element with the same `GetID` is already present (`find_if` with
`EqualFeature`). -/
def addToQueue (cap : Nat) (cmp : PreResult1 → PreResult1 → Bool)
    (res : PreResult1) (q : List PreResult1) : List PreResult1 :=
  if q.any (fun r => decide (GetID r = GetID res)) then q
  else queuePush cap cmp res q

/-- `Query::AddResultFromTrie` (lines 473-483): the constructed `PreResult1`
is offered to each of the three queues with its criterion comparator. -/
def AddResultFromTrie (cap : Nat) (cmp0 cmp1 cmp2 : PreResult1 → PreResult1 → Bool)
    (res : PreResult1) (qs : CandidateQueues) : CandidateQueues :=
  ⟨addToQueue cap cmp0 res qs.q0, addToQueue cap cmp1 res qs.q1,
    addToQueue cap cmp2 res qs.q2⟩

/-- Invariant of one candidate queue: no `FeatureKey` occurs twice, and the
size is bounded by the capacity. -/
def QueueInv (cap : Nat) (q : List PreResult1) : Prop :=
  q.Pairwise (fun a b => GetID a ≠ GetID b) ∧ q.length ≤ cap

/-- Invariant of all three candidate queues. -/
def QueuesInv (cap : Nat) (qs : CandidateQueues) : Prop :=
  QueueInv cap qs.q0 ∧ QueueInv cap qs.q1 ∧ QueueInv cap qs.q2

/-- Modelled from the spec: `strings::StartsWith(s.begin(), s.end(),
t.begin(), t.end())` from `base/string_utils` (not under `src/`) — does `s`
start with `t`? -/
def StartsWith (s pat : List Nat) : Bool :=
  pat.isPrefixOf s

/-- `Query::MatchForSuggestions` (lines 713-723): emit every dictionary entry
`(s, m)` with `m ≤ token.size()` whose string `s` starts with `token`. -/
def MatchForSuggestions (dict : List (List Nat × Nat)) (token : List Nat) :
    List (List Nat) :=
  (dict.filter (fun e => decide (e.2 ≤ token.length) && StartsWith e.1 token)).map
    Prod.fst

/-- `Query::SuggestStrings` (lines 689-711): fire on zero tokens with a
nonempty trailing fragment (match the fragment), or on exactly one token
(match the token, extended by a space and the fragment only when the fragment
is nonempty). -/
def SuggestStrings (dict : List (List Nat × Nat)) (tokens : List (List Nat))
    (pfx : List Nat) : List (List Nat) :=
  if tokens.length = 0 && !pfx.isEmpty then MatchForSuggestions dict pfx
  else if tokens.length = 1 then
    MatchForSuggestions dict
      (if !pfx.isEmpty then tokens.headD [] ++ 32 :: pfx else tokens.headD [])
  else []

/-- The target string of the one-token suggestion case as the code builds it:
the token, extended by a space and the trailing fragment only when the
fragment is nonempty. -/
def suggestTarget (t0 pfx : List Nat) : List Nat :=
  if pfx = [] then t0 else t0 ++ 32 :: pfx

/-- The claim's reading of the suggester, written from its words: the firing
condition is the same, but the one-token target is always
`token[0] + " " + prefix`, and an entry `(s, m)` is emitted iff
`m ≤ target.size()` and the entry `s` is a string prefix of the target.
Stated only to be compared against `SuggestStrings` above. -/
def claimedSuggestStrings (dict : List (List Nat × Nat)) (tokens : List (List Nat))
    (pfx : List Nat) : List (List Nat) :=
  if tokens.length = 0 && !pfx.isEmpty then
    (dict.filter (fun e => decide (e.2 ≤ pfx.length) && e.1.isPrefixOf pfx)).map
      Prod.fst
  else if tokens.length = 1 then
    (dict.filter (fun e =>
      decide (e.2 ≤ (tokens.headD [] ++ 32 :: pfx).length)
        && e.1.isPrefixOf (tokens.headD [] ++ 32 :: pfx))).map Prod.fst
  else []

/-- `uint32_t(-1)`, the sentinel penalty of `impl::BestNameFinder`. -/
def uint32Max : Nat :=
  4294967295

/-- `Query::GetBestMatchName` (lines 514-526) with `impl::BestNameFinder`
(lines 488-510): the penalty starts at `uint32_t(-1)` and the name at the
caller's empty string; each name `(lang, name)` the feature yields is scored
and replaces the running best exactly when its penalty is strictly smaller.
`score` stands for `LangKeywordsScorer::Score` (external). -/
def GetBestMatchName (score : Int → List Nat → Nat)
    (names : List (Int × List Nat)) : Nat × List Nat :=
  names.foldl
    (fun acc ln => if score ln.1 ln.2 < acc.1 then (score ln.1 ln.2, ln.2) else acc)
    (uint32Max, [])

/-! ### Generic facts about `sortBy` -/

theorem insertSorted_perm {α : Type} (le : α → α → Bool) (x : α) :
    ∀ l : List α, (insertSorted le x l).Perm (x :: l)
  | [] => List.Perm.refl _
  | y :: t => by
      unfold insertSorted
      split_ifs with h
      · exact List.Perm.refl _
      · exact ((insertSorted_perm le x t).cons y).trans (List.Perm.swap x y t)

theorem sortBy_perm {α : Type} (le : α → α → Bool) :
    ∀ l : List α, (sortBy le l).Perm l
  | [] => List.Perm.refl _
  | x :: t =>
      (insertSorted_perm le x (sortBy le t)).trans ((sortBy_perm le t).cons x)

theorem insertSorted_pairwise {α : Type} (le : α → α → Bool)
    (htrans : ∀ a b c, le a b = true → le b c = true → le a c = true)
    (htot : ∀ a b, le a b = true ∨ le b a = true) (x : α) :
    ∀ l : List α, l.Pairwise (fun a b => le a b = true) →
      (insertSorted le x l).Pairwise (fun a b => le a b = true)
  | [], _ => by simp [insertSorted]
  | y :: t, h => by
      unfold insertSorted
      rcases List.pairwise_cons.mp h with ⟨hy, ht⟩
      split_ifs with hxy
      · exact List.pairwise_cons.mpr
          ⟨fun z hz => by
            rcases List.mem_cons.mp hz with rfl | hz
            · exact hxy
            · exact htrans x y z hxy (hy z hz), h⟩
      · refine List.pairwise_cons.mpr ⟨fun z hz => ?_,
          insertSorted_pairwise le htrans htot x t ht⟩
        have hz2 : z = x ∨ z ∈ t := by
          have := (insertSorted_perm le x t).mem_iff.mp hz
          simpa using this
        rcases hz2 with rfl | hz2
        · rcases htot y z with h2 | h2
          · exact h2
          · exact absurd h2 (by simpa using hxy)
        · exact hy z hz2

theorem sortBy_pairwise {α : Type} (le : α → α → Bool)
    (htrans : ∀ a b c, le a b = true → le b c = true → le a c = true)
    (htot : ∀ a b, le a b = true ∨ le b a = true) :
    ∀ l : List α, (sortBy le l).Pairwise (fun a b => le a b = true)
  | [] => by simp [sortBy]
  | x :: t =>
      insertSorted_pairwise le htrans htot x (sortBy le t)
        (sortBy_pairwise le htrans htot t)

/-! ### Facts about `rankOf` -/

theorem rankOf_perm {β : Type} (K : β → Nat) {l₁ l₂ : List β}
    (h : l₁.Perm l₂) (v : β) : rankOf K l₁ v = rankOf K l₂ v := by
  unfold rankOf
  rw [List.toFinset_eq_of_perm _ _ (h.map K)]

theorem rankOf_mono {β : Type} (K : β → Nat) (l : List β) {v w : β}
    (h : K v ≤ K w) : rankOf K l v ≤ rankOf K l w := by
  unfold rankOf
  refine Finset.card_le_card (fun m hm => ?_)
  rcases Finset.mem_filter.mp hm with ⟨hmem, hlt⟩
  exact Finset.mem_filter.mpr ⟨hmem, lt_of_lt_of_le hlt h⟩

theorem rankOf_strict {β : Type} (K : β → Nat) (l : List β) {v w : β}
    (hv : v ∈ l) (h : K v < K w) : rankOf K l v < rankOf K l w := by
  unfold rankOf
  refine Finset.card_lt_card ?_
  rw [Finset.ssubset_iff_of_subset (fun m hm => ?_)]
  · refine ⟨K v, Finset.mem_filter.mpr ⟨?_, h⟩, ?_⟩
    · exact List.mem_toFinset.mpr (List.mem_map.mpr ⟨v, hv, rfl⟩)
    · intro hc
      exact absurd (Finset.mem_filter.mp hc).2 (lt_irrefl _)
  · rcases Finset.mem_filter.mp hm with ⟨hmem, hlt⟩
    exact Finset.mem_filter.mpr ⟨hmem, lt_trans hlt h⟩

theorem rankOf_congr {β : Type} (K : β → Nat) (l : List β) {v w : β}
    (h : K v = K w) : rankOf K l v = rankOf K l w := by
  unfold rankOf
  rw [h]

theorem rankOf_head {β : Type} (K : β → Nat) (x : β) (t : List β)
    (h : (x :: t).Pairwise (fun a b => K a ≤ K b)) : rankOf K (x :: t) x = 0 := by
  unfold rankOf
  rw [Finset.card_eq_zero, Finset.filter_eq_empty_iff]
  intro m hm
  rcases List.mem_map.mp (List.mem_toFinset.mp hm) with ⟨z, hz, rfl⟩
  rcases List.mem_cons.mp hz with rfl | hz
  · exact lt_irrefl _
  · exact not_lt_of_le ((List.pairwise_cons.mp h).1 z hz)

theorem rankOf_cons {β : Type} (K : β → Nat) (x y : β) (t : List β) (z : β)
    (h : (x :: y :: t).Pairwise (fun a b => K a ≤ K b)) (hz : z ∈ y :: t) :
    rankOf K (x :: y :: t) z
      = (if K x < K y then 1 else 0) + rankOf K (y :: t) z := by
  have hxy : K x ≤ K y := (List.pairwise_cons.mp h).1 y (by simp)
  have hyz : K y ≤ K z := by
    rcases List.mem_cons.mp hz with rfl | hz2
    · exact le_refl _
    · exact (List.pairwise_cons.mp (List.pairwise_cons.mp h).2).1 z hz2
  have hins : ((x :: y :: t).map K).toFinset
      = insert (K x) (((y :: t).map K).toFinset) := by
    simp
  unfold rankOf
  rw [hins, Finset.filter_insert]
  split_ifs with hxz hxy2 hxy2
  · -- K x < K z and K x < K y: K x is a fresh key strictly below K z
    have hnm : K x ∉ (((y :: t).map K).toFinset.filter (fun m => m < K z)) := by
      intro hc
      rcases List.mem_map.mp (List.mem_toFinset.mp (Finset.mem_filter.mp hc).1)
        with ⟨w, hw, hwK⟩
      have : K y ≤ K w := by
        rcases List.mem_cons.mp hw with rfl | hw2
        · exact le_refl _
        · exact (List.pairwise_cons.mp (List.pairwise_cons.mp h).2).1 w hw2
      omega
    rw [Finset.card_insert_of_not_mem hnm]
    omega
  · -- K x < K z but K x = K y: the insert is absorbed
    have hk : K x ∈ (((y :: t).map K).toFinset.filter (fun m => m < K z)) := by
      refine Finset.mem_filter.mpr ⟨?_, hxz⟩
      have hxy3 : K x = K y := le_antisymm hxy (by omega)
      rw [hxy3]
      exact List.mem_toFinset.mpr (List.mem_map.mpr ⟨y, by simp, rfl⟩)
    rw [Finset.insert_eq_self.mpr hk]
    omega
  · exact absurd (lt_of_lt_of_le hxy2 hyz) hxz
  · omega

/-! ### Facts about `assignRanks` and `rankPass` -/

theorem assignRanks_mem {β : Type} (K : β → Nat) (st : Nat → β → β) :
    ∀ s : List β, s.Pairwise (fun a b => K a ≤ K b) →
      ∀ (r0 : Nat) (z : β), z ∈ assignRanks K st s r0 →
        ∃ x, x ∈ s ∧ z = st (r0 + rankOf K s x) x
  | [], _ => by intro r0 z hz; simp [assignRanks] at hz
  | [x], _ => by
      intro r0 z hz
      simp only [assignRanks, List.mem_singleton] at hz
      refine ⟨x, by simp, ?_⟩
      rw [hz, rankOf_head K x [] (by simp), Nat.add_zero]
  | x :: y :: t, h => by
      intro r0 z hz
      rw [assignRanks] at hz
      rcases List.mem_cons.mp hz with rfl | hz
      · refine ⟨x, by simp, ?_⟩
        rw [rankOf_head K x (y :: t) h, Nat.add_zero]
      · rcases assignRanks_mem K st (y :: t) (List.pairwise_cons.mp h).2 _ z hz
          with ⟨w, hw, hwz⟩
        refine ⟨w, List.mem_cons_of_mem x hw, ?_⟩
        rw [hwz, rankOf_cons K x y t w h hw]
        split_ifs <;> congr 1 <;> omega

theorem assignRanks_map {β γ : Type} (K : β → Nat) (st : Nat → β → β)
    (f : β → γ) (hf : ∀ r x, f (st r x) = f x) :
    ∀ (s : List β) (r0 : Nat), (assignRanks K st s r0).map f = s.map f
  | [], _ => rfl
  | [x], r0 => by simp [assignRanks, hf]
  | x :: y :: t, r0 => by
      rw [assignRanks, List.map_cons, List.map_cons, hf,
        assignRanks_map K st f hf (y :: t) _]

theorem rankPass_sorted {β : Type} (K : β → Nat) (l : List β) :
    (sortBy (fun a b => decide (K a ≤ K b)) l).Pairwise
      (fun a b => K a ≤ K b) := by
  have h := sortBy_pairwise (fun a b => decide (K a ≤ K b))
    (by intro a b c h1 h2; simp at h1 h2 ⊢; omega)
    (by intro a b; simp; omega) l
  exact h.imp (fun h2 => by simpa using h2)

theorem rankPass_mem {β : Type} (K : β → Nat) (st : Nat → β → β) (l : List β)
    (z : β) (hz : z ∈ rankPass K st l) :
    ∃ x, x ∈ l ∧ z = st (rankOf K l x) x := by
  rcases assignRanks_mem K st _ (rankPass_sorted K l) 0 z hz with ⟨x, hx, hxz⟩
  have hperm := sortBy_perm (fun a b => decide (K a ≤ K b)) l
  refine ⟨x, hperm.mem_iff.mp hx, ?_⟩
  rw [hxz, rankOf_perm K hperm x, Nat.zero_add]

theorem rankPass_map_perm {β γ : Type} (K : β → Nat) (st : Nat → β → β)
    (f : β → γ) (hf : ∀ r x, f (st r x) = f x) (l : List β) :
    ((rankPass K st l).map f).Perm (l.map f) := by
  rw [rankPass, assignRanks_map K st f hf]
  exact (sortBy_perm (fun a b => decide (K a ≤ K b)) l).map f

/-! ### Facts about `indLt`, `sort3` and the fused order -/

theorem indLt_iff {α : Type} (x y : IndexedValue α) :
    indLt x y = true ↔ lexProp x y := by
  unfold indLt lexProp
  split_ifs with e0 e1 e2 <;>
    simp only [decide_eq_true_eq, Bool.false_eq_true, false_iff] <;> omega

theorem indLt_eq_false {α : Type} (x y : IndexedValue α) :
    indLt x y = false ↔ ¬ lexProp x y := by
  rw [Bool.eq_false_iff, Ne, indLt_iff]

theorem indLe_total {α : Type} (a b : IndexedValue α) :
    (!(indLt b a)) = true ∨ (!(indLt a b)) = true := by
  by_cases h : lexProp b a
  · right
    rw [Bool.not_eq_true', indLt_eq_false]
    unfold lexProp at h ⊢
    omega
  · left
    rw [Bool.not_eq_true', indLt_eq_false]
    exact h

theorem indLe_trans {α : Type} (a b c : IndexedValue α)
    (h1 : (!(indLt b a)) = true) (h2 : (!(indLt c b)) = true) :
    (!(indLt c a)) = true := by
  rw [Bool.not_eq_true', indLt_eq_false] at h1 h2 ⊢
  unfold lexProp at h1 h2 ⊢
  omega

theorem sort3_dom (a0 a1 a2 b0 b1 b2 : Nat) (h0 : a0 ≤ b0) (h1 : a1 ≤ b1)
    (h2 : a2 ≤ b2) (hs : a0 < b0 ∨ a1 < b1 ∨ a2 < b2) :
    (sort3 a0 a1 a2).1 < (sort3 b0 b1 b2).1 ∨
      ((sort3 a0 a1 a2).1 = (sort3 b0 b1 b2).1 ∧
        ((sort3 a0 a1 a2).2.1 < (sort3 b0 b1 b2).2.1 ∨
          ((sort3 a0 a1 a2).2.1 = (sort3 b0 b1 b2).2.1 ∧
            (sort3 a0 a1 a2).2.2 < (sort3 b0 b1 b2).2.2))) := by
  unfold sort3
  split_ifs <;> dsimp only <;> omega

theorem rankOf_val {α : Type} (k : α → Nat) (S : List (IndexedValue α))
    (x : IndexedValue α) :
    rankOf (fun z : IndexedValue α => k z.val) S x
      = rankOf k (S.map IndexedValue.val) x.val := by
  unfold rankOf
  rw [List.map_map]
  rfl

theorem flushIndexed_char {α : Type} (k0 k1 k2 : α → Nat) (l : List α) :
    ∀ y ∈ flushIndexed k0 k1 k2 l,
      y.i0 = (ranksTriple k0 k1 k2 l y.val).1 ∧
        y.i1 = (ranksTriple k0 k1 k2 l y.val).2.1 ∧
          y.i2 = (ranksTriple k0 k1 k2 l y.val).2.2 := by
  intro y hy
  unfold flushIndexed at hy
  have hy2 := (sortBy_perm _ _).mem_iff.mp hy
  rcases List.mem_map.mp hy2 with ⟨z, hz, rfl⟩
  have hL0val : ((l.map mkIndexedValue).map IndexedValue.val) = l := by
    have hcomp : (IndexedValue.val ∘ mkIndexedValue : α → α) = id := by
      funext v
      rfl
    simp [List.map_map, hcomp]
  have hPerm0 : ((rankPass (fun x => k0 x.val) setInd0
      (l.map mkIndexedValue)).map IndexedValue.val).Perm l := by
    have h := rankPass_map_perm (fun x => k0 x.val) setInd0 IndexedValue.val
      (fun _ _ => rfl) (l.map mkIndexedValue)
    rw [hL0val] at h
    exact h
  have hPerm1 : ((rankPass (fun x => k1 x.val) setInd1
      (rankPass (fun x => k0 x.val) setInd0
        (l.map mkIndexedValue))).map IndexedValue.val).Perm l :=
    (rankPass_map_perm (fun x => k1 x.val) setInd1 IndexedValue.val
      (fun _ _ => rfl) _).trans hPerm0
  have A0 : ∀ w ∈ rankPass (fun x => k0 x.val) setInd0 (l.map mkIndexedValue),
      w.i0 = rankOf k0 l w.val := by
    intro w hw
    rcases rankPass_mem _ _ _ w hw with ⟨x, hx, rfl⟩
    show rankOf (fun z => k0 z.val) _ x = rankOf k0 l x.val
    rw [rankOf_val k0 _ x, hL0val]
  have A1 : ∀ w ∈ rankPass (fun x => k1 x.val) setInd1
      (rankPass (fun x => k0 x.val) setInd0 (l.map mkIndexedValue)),
      w.i0 = rankOf k0 l w.val ∧ w.i1 = rankOf k1 l w.val := by
    intro w hw
    rcases rankPass_mem _ _ _ w hw with ⟨x, hx, rfl⟩
    refine ⟨?_, ?_⟩
    · show x.i0 = rankOf k0 l x.val
      exact A0 x hx
    · show rankOf (fun z => k1 z.val) _ x = rankOf k1 l x.val
      rw [rankOf_val k1 _ x]
      exact rankOf_perm k1 hPerm0 x.val
  have A2 : ∀ w ∈ rankPass (fun x => k2 x.val) setInd2
      (rankPass (fun x => k1 x.val) setInd1
        (rankPass (fun x => k0 x.val) setInd0 (l.map mkIndexedValue))),
      w.i0 = rankOf k0 l w.val ∧ w.i1 = rankOf k1 l w.val ∧
        w.i2 = rankOf k2 l w.val := by
    intro w hw
    rcases rankPass_mem _ _ _ w hw with ⟨x, hx, rfl⟩
    refine ⟨?_, ?_, ?_⟩
    · show x.i0 = rankOf k0 l x.val
      exact (A1 x hx).1
    · show x.i1 = rankOf k1 l x.val
      exact (A1 x hx).2
    · show rankOf (fun z => k2 z.val) _ x = rankOf k2 l x.val
      rw [rankOf_val k2 _ x]
      exact rankOf_perm k2 hPerm1 x.val
  rcases A2 z hz with ⟨e0, e1, e2⟩
  refine ⟨?_, ?_, ?_⟩ <;>
    · show _ = _
      simp only [SortIndex, ranksTriple]
      rw [e0, e1, e2]

theorem flushIndexed_sorted {α : Type} (k0 k1 k2 : α → Nat) (l : List α) :
    (flushIndexed k0 k1 k2 l).Pairwise (fun a b => (!(indLt b a)) = true) := by
  unfold flushIndexed
  exact sortBy_pairwise _ (fun a b c h1 h2 => indLe_trans a b c h1 h2)
    (fun a b => indLe_total a b) _

/-- C1: if, on the vector of promoted candidates that survived linear-object
deduplication, candidate `A` dominates candidate `B` under all three ranking
criteria (key no larger under each criterion comparator, strictly smaller
under at least one), then `A` precedes `B` in the sequence
`Query::FlushResults` emits: the per-criterion rank positions of `A` are
dominated by those of `B`, the ascending per-element sort of the rank triples
preserves the domination, and the final lexicographic comparison of sorted
triples puts `A` strictly first. -/
theorem FlushResults_dominance {α : Type} (k0 k1 k2 : α → Nat) (l : List α)
    (A B : α) (hA : A ∈ l) (hB : B ∈ l)
    (h0 : k0 A ≤ k0 B) (h1 : k1 A ≤ k1 B) (h2 : k2 A ≤ k2 B)
    (hs : k0 A < k0 B ∨ k1 A < k1 B ∨ k2 A < k2 B)
    (p q : Nat) (hp : p < (FlushResults k0 k1 k2 l).length)
    (hq : q < (FlushResults k0 k1 k2 l).length)
    (hpA : (FlushResults k0 k1 k2 l).get ⟨p, hp⟩ = A)
    (hqB : (FlushResults k0 k1 k2 l).get ⟨q, hq⟩ = B) :
    p < q := by
  have hpF : p < (flushIndexed k0 k1 k2 l).length := by
    simpa [FlushResults] using hp
  have hqF : q < (flushIndexed k0 k1 k2 l).length := by
    simpa [FlushResults] using hq
  have hpA2 : ((flushIndexed k0 k1 k2 l).get ⟨p, hpF⟩).val = A := by
    have h := hpA
    simp only [FlushResults, List.get_eq_getElem, List.getElem_map] at h
    simpa [List.get_eq_getElem] using h
  have hqB2 : ((flushIndexed k0 k1 k2 l).get ⟨q, hqF⟩).val = B := by
    have h := hqB
    simp only [FlushResults, List.get_eq_getElem, List.getElem_map] at h
    simpa [List.get_eq_getElem] using h
  have hcp := flushIndexed_char k0 k1 k2 l _
    (List.get_mem (flushIndexed k0 k1 k2 l) p hpF)
  have hcq := flushIndexed_char k0 k1 k2 l _
    (List.get_mem (flushIndexed k0 k1 k2 l) q hqF)
  have r0le : rankOf k0 l A ≤ rankOf k0 l B := rankOf_mono k0 l h0
  have r1le : rankOf k1 l A ≤ rankOf k1 l B := rankOf_mono k1 l h1
  have r2le : rankOf k2 l A ≤ rankOf k2 l B := rankOf_mono k2 l h2
  have rstrict : rankOf k0 l A < rankOf k0 l B ∨
      rankOf k1 l A < rankOf k1 l B ∨ rankOf k2 l A < rankOf k2 l B := by
    rcases hs with h | h | h
    · exact Or.inl (rankOf_strict k0 l hA h)
    · exact Or.inr (Or.inl (rankOf_strict k1 l hA h))
    · exact Or.inr (Or.inr (rankOf_strict k2 l hA h))
  have hlex : lexProp ((flushIndexed k0 k1 k2 l).get ⟨p, hpF⟩)
      ((flushIndexed k0 k1 k2 l).get ⟨q, hqF⟩) := by
    have hd := sort3_dom (rankOf k0 l A) (rankOf k1 l A) (rankOf k2 l A)
      (rankOf k0 l B) (rankOf k1 l B) (rankOf k2 l B) r0le r1le r2le rstrict
    unfold lexProp
    rw [hcp.1, hcp.2.1, hcp.2.2, hcq.1, hcq.2.1, hcq.2.2, hpA2, hqB2]
    unfold ranksTriple
    exact hd
  have hsorted := flushIndexed_sorted k0 k1 k2 l
  rcases Nat.lt_trichotomy p q with h | h | h
  · exact h
  · exfalso
    subst h
    have hAB : A = B := by
      rw [← hpA2, ← hqB2]
    rcases hs with h3 | h3 | h3 <;> rw [hAB] at h3 <;> omega
  · exfalso
    have hpw := List.pairwise_iff_get.mp hsorted ⟨q, hqF⟩ ⟨p, hpF⟩ h
    rw [Bool.not_eq_true', indLt_eq_false] at hpw
    exact hpw hlex

/-- Witness for C1 at a concrete input: keys are the identity, the list is
`[0, 1]`, `0` dominates `1`, and indeed position 0 precedes position 1. -/
theorem FlushResults_dominance_witness : 0 < 1 :=
  FlushResults_dominance (fun v : Nat => v) (fun v => v) (fun v => v) [0, 1]
    0 1 (by decide) (by decide) (by decide) (by decide) (by decide)
    (Or.inl (by decide)) 0 1 (by decide) (by decide) (by decide) (by decide)

/-! ### Filter and viewport-cache claims -/

/-- C2: a feature offset reached by the trie matcher in a tile of type
`world` is admitted by the `FeaturesFilter` no matter what the viewport
offset cache entry for that tile holds (the filter is constructed with
`alwaysTrue = isWorld`, and admission short-circuits before the binary
search), provided no cancellation is pending; and `UpdateViewportOffsets`
never fills — hence never filters — a `world` tile, whose cache entry stays
the empty vector created by `resize`. -/
theorem SearchFeatures_world_bypass (entry : List Nat) (off : Nat)
    (tiles : List MwmTile) (i : Nat) (hi : i < tiles.length)
    (hw : (tiles.get ⟨i, hi⟩).headerType = MapType.world) :
    searchFeaturesFilter entry MapType.world false off = Except.ok true ∧
      (UpdateViewportOffsets tiles).getD i [] = [] := by
  constructor
  · simp [searchFeaturesFilter, FeaturesFilter]
  · have hlen : i < (UpdateViewportOffsets tiles).length := by
      simpa [UpdateViewportOffsets] using hi
    rw [List.getD_eq_getElem _ _ hlen]
    have hget : (tiles.get ⟨i, hi⟩) = tiles[i] := rfl
    rw [hget] at hw
    simp [UpdateViewportOffsets, hw]

/-- Witness for C2 at a concrete input: a `world` tile with a cache entry
that does not contain the probed offset still admits it. -/
theorem SearchFeatures_world_bypass_witness :
    searchFeaturesFilter [999] MapType.world false 5 = Except.ok true :=
  (SearchFeatures_world_bypass [999] 5 [⟨true, true, MapType.world, [[5]]⟩] 0
    (by decide) (by decide)).1

/-- C8: every admission decision of the `FeaturesFilter` polls the cancel
flag first and, if it is set, throws the `CanceledError` sentinel — also when
`alwaysTrue` holds, i.e. also in `world` tiles, where the filter would
otherwise always admit. -/
theorem FeaturesFilter_cancel_first (entry : List Nat) (alwaysTrue : Bool)
    (off : Nat) :
    FeaturesFilter entry alwaysTrue true off = Except.error CancelException.mk ∧
      (∀ ty : MapType,
        searchFeaturesFilter entry ty true off = Except.error CancelException.mk) :=
  ⟨rfl, fun _ => rfl⟩

/-- C5 counterexample: a country tile whose scale index enumerates the same
feature offset in two covering intervals — the code only sorts (line 110),
it does not deduplicate, so the cache entry `[5, 5]` is not strictly
ascending. -/
theorem UpdateViewportOffsets_not_strict :
    (UpdateViewportOffsets
        [⟨true, true, MapType.country, [[5], [5]]⟩]).getD 0 [] = [5, 5] ∧
      ¬ List.Chain' (fun a b : Nat => a < b) [5, 5] := by
  refine ⟨rfl, fun h => ?_⟩
  have h5 := (List.chain'_cons.mp h).1
  omega

/-- C5 (amended): after `UpdateViewportOffsets`, every tile's cache entry is
sorted non-decreasing; it is strictly ascending only when the interval
enumeration yields no duplicate offsets. -/
theorem UpdateViewportOffsets_sorted (tiles : List MwmTile) (e : List Nat)
    (he : e ∈ UpdateViewportOffsets tiles) :
    List.Chain' (fun a b : Nat => a ≤ b) e := by
  rcases List.mem_map.mp he with ⟨t, _, rfl⟩
  split_ifs with hc
  · have hpw := sortBy_pairwise (fun a b : Nat => decide (a ≤ b))
      (by intro a b c h1 h2; simp at h1 h2 ⊢; omega)
      (by intro a b; simp; omega) t.intervalFeatureOffsets.flatten
    exact (hpw.imp (fun h => by simpa using h)).chain'
  · simp

/-- Witness for C5 (amended) at the concrete duplicate-offset tile. -/
theorem UpdateViewportOffsets_sorted_witness :
    List.Chain' (fun a b : Nat => a ≤ b) [5, 5] :=
  UpdateViewportOffsets_sorted [⟨true, true, MapType.country, [[5], [5]]⟩]
    [5, 5] (by decide)

/-- C4 counterexample: with a concrete rectangle model, a `SetViewport` call
with a rectangle different from the current viewport recomputes the offset
cache immediately — refuting the claim that `SetViewport` itself does not
rebuild it and that the rebuild happens lazily in the next `Search`. -/
theorem SetViewport_rebuilds_counterexample :
    (SetViewport (fun a b : Nat => a == b) (fun r => r) (fun r _ => [[r]]) 1
        ⟨0, 0, [[0]], true⟩).offsetsInViewport
      ≠ (⟨0, 0, [[0]], true⟩ : QueryVState Nat).offsetsInViewport := by
  decide

/-- C4 (amended): `SetViewport` rebuilds the viewport offset cache eagerly,
inside the call itself, whenever the rectangle differs from the current
viewport (it marks the cache valid and stores the freshly computed offsets),
and a subsequent `Search` call does not touch the cache at all. -/
theorem SetViewport_eager {Rect : Type} (beq : Rect → Rect → Bool)
    (scale3 : Rect → Rect) (updateOffsets : Rect → Rect → List (List Nat))
    (r : Rect) (s : QueryVState Rect) (h : beq s.viewport r = false) :
    (SetViewport beq scale3 updateOffsets r s).offsetsCacheIsValid = true ∧
      (SetViewport beq scale3 updateOffsets r s).offsetsInViewport
        = updateOffsets r (scale3 r) ∧
      (∀ (b : Bool) (stages : SearchStages Nat),
        (Search b stages (SetViewport beq scale3 updateOffsets r s)).2.1
          = SetViewport beq scale3 updateOffsets r s) := by
  unfold SetViewport
  rw [h]
  exact ⟨rfl, rfl, fun _ _ => rfl⟩

/-- Witness for C4 (amended) at the concrete rectangle model. -/
theorem SetViewport_eager_witness :
    (SetViewport (fun a b : Nat => a == b) (fun r => r) (fun r _ => [[r]]) 1
        ⟨0, 0, [[0]], true⟩).offsetsCacheIsValid = true :=
  (SetViewport_eager (fun a b : Nat => a == b) (fun r => r) (fun r _ => [[r]])
    1 ⟨0, 0, [[0]], true⟩ (by decide)).1

/-- C6 counterexample: the cancel flag is set before `Search` is entered,
yet the call still emits its feature result, because `Search` resets
`m_cancel` to `false` as its first statement. -/
theorem Search_cancelBefore_counterexample :
    (Search true (⟨none, [], [7]⟩ : SearchStages Nat)
        (⟨0, 0, [], false⟩ : QueryVState Nat)).1.featureResults ≠ [] := by
  decide

/-- C6 (amended): `Search` resets the cancel flag at entry (line 153), so its
behaviour does not depend on the flag value before the call: a pre-set flag
suppresses nothing, the flush emits all its feature results, the viewport
cache state is untouched, and the flag is `false` on return.  Only a cancel
raised after entry (observed at the checkpoints) cuts the run short. -/
theorem Search_resets_cancel {R Rect : Type} (b : Bool) (stages : SearchStages R)
    (s : QueryVState Rect) :
    Search b stages s = Search false stages s ∧
      (Search b stages s).1.featureResults = stages.flushResults ∧
      (Search b stages s).2.1 = s ∧ (Search b stages s).2.2 = false :=
  ⟨rfl, rfl, rfl, rfl⟩

/-! ### Tokenizer claims -/

theorem splitAux_ne_nil (d : Nat → Bool) :
    ∀ (s cur : List Nat), ∀ tok ∈ splitAux d cur s, tok ≠ []
  | [], cur => by
      intro tok h
      unfold splitAux at h
      split_ifs at h with h1
      · simp at h
      · simp only [List.mem_singleton] at h
        rw [h]
        simpa using h1
  | c :: t, cur => by
      intro tok h
      unfold splitAux at h
      split_ifs at h with h1 h2
      · exact splitAux_ne_nil d t [] tok h
      · rcases List.mem_cons.mp h with rfl | h3
        · simpa using h2
        · exact splitAux_ne_nil d t [] tok h3
      · exact splitAux_ne_nil d t (c :: cur) tok h

theorem SplitUniString_ne_nil (d : Nat → Bool) (s : List Nat) :
    ∀ tok ∈ SplitUniString d s, tok ≠ [] :=
  fun tok h => splitAux_ne_nil d s [] tok h

/-- C3: the detached trailing fragment of `Query::Search` is nonempty exactly
when the last code point of the raw query is not a delimiter and the token
list obtained by splitting the normalized query is nonempty; and when it is
taken, it equals the last token, which is removed from the list. -/
theorem SearchTokenize_spec (d : Nat → Bool) (raw uni : List Nat) :
    ((SearchTokenize d raw uni).2 ≠ [] ↔
      (d (LastUniChar raw) = false ∧ SplitUniString d uni ≠ [])) ∧
      (∀ h : SplitUniString d uni ≠ [], d (LastUniChar raw) = false →
        (SearchTokenize d raw uni).2 = (SplitUniString d uni).getLast h ∧
          (SearchTokenize d raw uni).1
            = (SplitUniString d uni).dropLast.take 31) := by
  unfold SearchTokenize
  by_cases hc : SplitUniString d uni ≠ [] ∧ d (LastUniChar raw) = false
  · rw [dif_pos hc]
    refine ⟨⟨fun _ => ⟨hc.2, hc.1⟩, fun _ => ?_⟩, fun h hd => ⟨rfl, rfl⟩⟩
    exact SplitUniString_ne_nil d uni _ (List.getLast_mem hc.1)
  · rw [dif_neg hc]
    refine ⟨⟨fun h => absurd rfl h, fun h => absurd ⟨h.2, h.1⟩ hc⟩,
      fun h hd => absurd ⟨h, hd⟩ hc⟩

/-- Witness for C3: query "a" (code point 97) with the space delimiter — the
trailing fragment is taken and equals the single token. -/
theorem SearchTokenize_spec_witness :
    (SearchTokenize (fun c => decide (c = 32)) [97] [97]).2 = [97] := by
  have h := ((SearchTokenize_spec (fun c => decide (c = 32)) [97] [97]).2
    (by decide) (by decide)).1
  rw [h]
  decide

/-! ### Candidate-queue claims -/

theorem worstElem_mem (cmp : PreResult1 → PreResult1 → Bool) :
    ∀ (l : List PreResult1) (x : PreResult1), worstElem cmp x l ∈ x :: l
  | [], x => by simp [worstElem]
  | y :: t, x => by
      unfold worstElem
      rcases List.mem_cons.mp (worstElem_mem cmp t (if cmp x y then y else x))
        with h | h
      · rw [h]
        split_ifs <;> simp
      · exact List.mem_cons_of_mem _ (List.mem_cons_of_mem _ h)

theorem eraseWorst_length (cmp : PreResult1 → PreResult1 → Bool)
    (q : List PreResult1) (h : q ≠ []) :
    (eraseWorst cmp q).length = q.length - 1 := by
  match q with
  | [] => exact absurd rfl h
  | x :: t =>
      unfold eraseWorst
      rw [List.length_erase_of_mem (worstElem_mem cmp t x)]

theorem eraseWorst_sublist (cmp : PreResult1 → PreResult1 → Bool)
    (q : List PreResult1) : (eraseWorst cmp q).Sublist q := by
  match q with
  | [] => exact List.Sublist.refl _
  | x :: t => exact List.erase_sublist _ _

theorem queuePush_inv (cap : Nat) (cmp : PreResult1 → PreResult1 → Bool)
    (v : PreResult1) (q : List PreResult1) (hq : QueueInv cap q)
    (hnew : ∀ r ∈ q, GetID r ≠ GetID v) :
    QueueInv cap (queuePush cap cmp v q) := by
  unfold QueueInv at hq ⊢
  unfold queuePush
  split_ifs with hlen
  · refine ⟨List.pairwise_cons.mpr ⟨fun r hr => (hnew r hr).symm, hq.1⟩, ?_⟩
    simp only [List.length_cons]
    omega
  · rcases q with _ | ⟨x, t⟩
    · exact ⟨List.Pairwise.nil, Nat.zero_le _⟩
    · have hsub := eraseWorst_sublist cmp (x :: t)
      refine ⟨List.pairwise_cons.mpr
        ⟨fun r hr => (hnew r (hsub.subset hr)).symm, hq.1.sublist hsub⟩, ?_⟩
      have hl := eraseWorst_length cmp (x :: t) (by simp)
      have h2 := hq.2
      simp only [List.length_cons] at *
      omega

theorem addToQueue_inv (cap : Nat) (cmp : PreResult1 → PreResult1 → Bool)
    (res : PreResult1) (q : List PreResult1) (hq : QueueInv cap q) :
    QueueInv cap (addToQueue cap cmp res q) := by
  unfold addToQueue
  split_ifs with hany
  · exact hq
  · refine queuePush_inv cap cmp res q hq ?_
    intro r hr hEq
    exact hany (List.any_eq_true.mpr ⟨r, hr, by simp [hEq]⟩)

theorem AddResultFromTrie_inv_step (cap : Nat)
    (cmp0 cmp1 cmp2 : PreResult1 → PreResult1 → Bool) (res : PreResult1)
    (qs : CandidateQueues) (h : QueuesInv cap qs) :
    QueuesInv cap (AddResultFromTrie cap cmp0 cmp1 cmp2 res qs) := by
  unfold QueuesInv at h ⊢
  unfold AddResultFromTrie
  exact ⟨addToQueue_inv _ _ _ _ h.1, addToQueue_inv _ _ _ _ h.2.1,
    addToQueue_inv _ _ _ _ h.2.2⟩

/-- C7: throughout a `Search` call, every candidate queue holds any given
`FeatureKey` at most once and never exceeds its capacity `2 * resultsNeeded`:
the queues start empty, and any sequence of `AddResultFromTrie` insertions —
each of which pushes a hit into a queue only when no element with the same
`GetID` is present there — preserves both bounds. -/
theorem AddResultFromTrie_inv (n : Nat)
    (cmp0 cmp1 cmp2 : PreResult1 → PreResult1 → Bool)
    (vals : List PreResult1) :
    QueuesInv (2 * n)
      (vals.foldl (fun qs r => AddResultFromTrie (2 * n) cmp0 cmp1 cmp2 r qs)
        ⟨[], [], []⟩) := by
  have haux : ∀ (vs : List PreResult1) (qs : CandidateQueues),
      QueuesInv (2 * n) qs →
        QueuesInv (2 * n)
          (vs.foldl (fun qs r => AddResultFromTrie (2 * n) cmp0 cmp1 cmp2 r qs)
            qs) := by
    intro vs
    induction vs with
    | nil => exact fun qs h => h
    | cons v vs ih =>
        intro qs h
        exact ih _ (AddResultFromTrie_inv_step _ _ _ _ _ _ h)
  refine haux vals _ ?_
  unfold QueuesInv QueueInv
  exact ⟨⟨List.Pairwise.nil, Nat.zero_le _⟩, ⟨List.Pairwise.nil, Nat.zero_le _⟩,
    ⟨List.Pairwise.nil, Nat.zero_le _⟩⟩

/-! ### Suggester claims -/

theorem isPrefixOf_iff : ∀ pat s : List Nat,
    pat.isPrefixOf s = true ↔ ∃ r, pat ++ r = s
  | [], s => by
      simp [List.isPrefixOf]
  | a :: pat, [] => by
      simp [List.isPrefixOf]
  | a :: pat, b :: s => by
      simp only [List.isPrefixOf, Bool.and_eq_true, beq_iff_eq]
      constructor
      · rintro ⟨rfl, h⟩
        rcases (isPrefixOf_iff pat s).mp h with ⟨r, rfl⟩
        exact ⟨r, rfl⟩
      · rintro ⟨r, hr⟩
        injection hr with h1 h2
        exact ⟨h1, (isPrefixOf_iff pat s).mpr ⟨r, h2⟩⟩

theorem MatchForSuggestions_mem (dict : List (List Nat × Nat))
    (target s : List Nat) :
    s ∈ MatchForSuggestions dict target ↔
      ∃ m, (s, m) ∈ dict ∧ m ≤ target.length ∧ ∃ r, target ++ r = s := by
  unfold MatchForSuggestions StartsWith
  simp only [List.mem_map, List.mem_filter, Bool.and_eq_true, decide_eq_true_eq]
  constructor
  · rintro ⟨e, ⟨hmem, hlen, hpref⟩, rfl⟩
    exact ⟨e.2, by simpa using hmem, hlen, (isPrefixOf_iff _ _).mp hpref⟩
  · rintro ⟨m, hmem, hlen, hpref⟩
    exact ⟨(s, m), ⟨hmem, hlen, (isPrefixOf_iff _ _).mpr hpref⟩, rfl⟩

/-- C9 counterexample: dictionary entry ("cafe", 3), no tokens, trailing
fragment "caf".  The code emits the entry (the target is a prefix of the
entry and 3 ≤ 3), while the claim's criterion — the entry a string prefix of
the target — admits nothing. -/
theorem SuggestStrings_counterexample :
    SuggestStrings [([99, 97, 102, 101], 3)] [] [99, 97, 102]
        = [[99, 97, 102, 101]] ∧
      claimedSuggestStrings [([99, 97, 102, 101], 3)] [] [99, 97, 102] = [] :=
  ⟨by decide, by decide⟩

/-- C9 (amended): the suggester fires only on an empty token list with a
nonempty trailing fragment (target = the fragment) or on exactly one token
(target = the token, extended by a space and the fragment only when the
fragment is nonempty); a dictionary entry `(s, m)` produces a suggestion
result iff `m ≤ target.size()` and the **target** is a string prefix of the
entry `s`. -/
theorem SuggestStrings_spec (dict : List (List Nat × Nat))
    (tokens : List (List Nat)) (pfx : List Nat) :
    (tokens = [] → pfx = [] → SuggestStrings dict tokens pfx = []) ∧
      (tokens = [] → pfx ≠ [] → ∀ s,
        s ∈ SuggestStrings dict tokens pfx ↔
          ∃ m, (s, m) ∈ dict ∧ m ≤ pfx.length ∧ ∃ r, pfx ++ r = s) ∧
      (∀ t0, tokens = [t0] → ∀ s,
        s ∈ SuggestStrings dict tokens pfx ↔
          ∃ m, (s, m) ∈ dict ∧ m ≤ (suggestTarget t0 pfx).length ∧
            ∃ r, suggestTarget t0 pfx ++ r = s) ∧
      (2 ≤ tokens.length → SuggestStrings dict tokens pfx = []) := by
  refine ⟨?_, ?_, ?_, ?_⟩
  · rintro rfl rfl
    rfl
  · rintro rfl hp s
    unfold SuggestStrings
    rw [if_pos (by simp [List.isEmpty_iff, hp])]
    exact MatchForSuggestions_mem dict pfx s
  · rintro t0 rfl s
    unfold SuggestStrings
    rw [if_neg (by simp), if_pos (by simp)]
    have ht : (if !(pfx.isEmpty) then ([t0] : List (List Nat)).headD [] ++ 32 :: pfx
        else ([t0] : List (List Nat)).headD []) = suggestTarget t0 pfx := by
      unfold suggestTarget
      by_cases hp : pfx = [] <;> simp [hp, List.isEmpty_iff]
    rw [ht]
    exact MatchForSuggestions_mem dict (suggestTarget t0 pfx) s
  · intro hlen2
    unfold SuggestStrings
    have h1 : ¬((decide (tokens.length = 0) && !pfx.isEmpty) = true) := by
      simp only [Bool.and_eq_true, decide_eq_true_eq]
      rintro ⟨h0, _⟩
      omega
    rw [if_neg h1, if_neg (by omega)]

/-- Witness for C9 (amended) at the counterexample input: the entry "cafe" is
emitted for the fragment "caf". -/
theorem SuggestStrings_spec_witness :
    [99, 97, 102, 101] ∈ SuggestStrings [([99, 97, 102, 101], 3)] [] [99, 97, 102] :=
  ((SuggestStrings_spec [([99, 97, 102, 101], 3)] [] [99, 97, 102]).2.1 rfl
    (by decide) [99, 97, 102, 101]).mpr
    ⟨3, by decide, by decide, ⟨[101], by decide⟩⟩

/-! ### Best-name claims -/

theorem GetBestMatchName_stays (score : Int → List Nat → Nat) :
    ∀ (names : List (Int × List Nat)) (acc : Nat × List Nat),
      (∀ ln ∈ names, ¬ score ln.1 ln.2 < acc.1) →
      names.foldl
        (fun acc ln =>
          if score ln.1 ln.2 < acc.1 then (score ln.1 ln.2, ln.2) else acc)
        acc = acc
  | [], _ => fun _ => rfl
  | ln :: names, acc => fun h => by
      rw [List.foldl_cons, if_neg (h ln (by simp))]
      exact GetBestMatchName_stays score names acc
        (fun x hx => h x (List.mem_cons_of_mem _ hx))

theorem GetBestMatchName_dichotomy (score : Int → List Nat → Nat) :
    ∀ (names : List (Int × List Nat)) (acc : Nat × List Nat),
      (acc.1 < uint32Max ∨ acc = (uint32Max, [])) →
      ((names.foldl
          (fun acc ln =>
            if score ln.1 ln.2 < acc.1 then (score ln.1 ln.2, ln.2) else acc)
          acc).1 < uint32Max ∨
        names.foldl
          (fun acc ln =>
            if score ln.1 ln.2 < acc.1 then (score ln.1 ln.2, ln.2) else acc)
          acc = (uint32Max, []))
  | [], _ => fun h => h
  | ln :: names, acc => fun h => by
      rw [List.foldl_cons]
      apply GetBestMatchName_dichotomy score names
      split_ifs with hlt
      · left
        rcases h with h | h
        · exact lt_trans hlt h
        · rw [h] at hlt
          exact hlt
      · exact h

/-- C10: when no name of the feature scores a penalty strictly below
`uint32_t(-1)` — in particular when the feature has no names at all, or all
names score the worst sentinel — `GetBestMatchName` returns the sentinel
penalty and the empty best name; and in general a name scoring the sentinel
is never selected: the result either carries a penalty strictly below the
sentinel or is exactly the sentinel with the empty name. -/
theorem GetBestMatchName_sentinel (score : Int → List Nat → Nat)
    (names : List (Int × List Nat))
    (h : ∀ ln ∈ names, uint32Max ≤ score ln.1 ln.2) :
    GetBestMatchName score names = (uint32Max, []) ∧
      (∀ ns : List (Int × List Nat),
        (GetBestMatchName score ns).1 < uint32Max ∨
          GetBestMatchName score ns = (uint32Max, [])) := by
  constructor
  · unfold GetBestMatchName
    refine GetBestMatchName_stays score names (uint32Max, []) ?_
    intro ln hln
    have h2 := h ln hln
    show ¬ score ln.1 ln.2 < uint32Max
    omega
  · intro ns
    unfold GetBestMatchName
    exact GetBestMatchName_dichotomy score ns (uint32Max, []) (Or.inr rfl)

/-- Witness for C10: a single name scoring exactly the sentinel is not
selected, the result is the sentinel penalty with the empty name. -/
theorem GetBestMatchName_sentinel_witness :
    GetBestMatchName (fun _ _ => uint32Max) [(0, [120])] = (uint32Max, []) :=
  (GetBestMatchName_sentinel (fun _ _ => uint32Max) [(0, [120])] (by decide)).1

end SearchQuery
